import Mathlib

/-!
Verification of the doxygen comment parser (src/src/parser.rs).

The grammar pass (`parse_items`) is embedded from the source.  The tokenizer
(`lex`, in src/lexer.rs, not available) is modelled from spec section 4.1.
-/

namespace Doxygen

/-- Modelled from the spec: the token alphabet of the tokenizer (spec section 3,
`LexItem` in src/lexer.rs, which is not part of the available sources).  The
Rust `At(_)` constructor carries a payload that `parse_items` never inspects;
it is dropped here. -/
inductive LexItem where
  | atSigil : LexItem
  | word (s : String) : LexItem
  | space : LexItem
  | newLine : LexItem
  | paren (c : Char) : LexItem
  deriving DecidableEq, Repr

/-- The `GrammarItem` type from src/src/parser.rs lines 15-25.  `nota` is the source's
`Notation` variant (that name is unusable in Lean). -/
inductive GrammarItem where
  | nota (meta : List String) (params : List String) (tag : String) : GrammarItem
  | text (s : String) : GrammarItem
  | groupStart : GrammarItem
  | groupEnd : GrammarItem
  deriving DecidableEq, Repr

/-- The `ParseError` type from src/src/parser.rs lines 6-13. -/
inductive ParseError where
  | unexpectedEndOfInput : ParseError
  | unexpectedInput (found : String) (expected : List String) : ParseError
  deriving DecidableEq, Repr

/-- Modelled from the spec: horizontal whitespace (spec section 4.1 rule 3,
"spaces/tabs"). -/
def isHWS (c : Char) : Bool := c = ' ' || c = '\t'

/-- Modelled from the spec: a character that terminates a `Word` run
(spec section 4.1 rule 5: sigil, brace, whitespace, line break). -/
def isBoundary (c : Char) : Bool :=
  c = '@' || c = '\x7b' || c = '\x7d' || isHWS c || c = '\n'

/-- Modelled from the spec: the tokenizer's scanning loop (spec section 4.1,
`lex` in src/lexer.rs, which is not part of the available sources).  Priority
order: sigil, brace, horizontal-whitespace run, line break, greedy word run.
The `fuel` argument only makes the recursion structural; `lexGo_fuel` below
shows the result does not depend on it once it covers the input length. -/
def lexGo : Nat → List Char → List LexItem
  | 0, _ => []
  | _, [] => []
  | fuel + 1, c :: rest =>
    if c = '@' then .atSigil :: lexGo fuel rest
    else if c = '\x7b' || c = '\x7d' then .paren c :: lexGo fuel rest
    else if isHWS c then .space :: lexGo fuel (rest.dropWhile isHWS)
    else if c = '\n' then .newLine :: lexGo fuel rest
    else
      .word (String.mk (c :: rest.takeWhile (fun x => !isBoundary x))) ::
        lexGo fuel (rest.dropWhile (fun x => !isBoundary x))

/-- Modelled from the spec: the tokenizer over a character list. -/
def lexChars (l : List Char) : List LexItem := lexGo l.length l

/-- Modelled from the spec: `lex` on a string is the scanning loop over its
characters. -/
def lex (input : String) : List LexItem := lexChars input.data

/-- The argument capture at lookahead offset 3: `match item.get(3) { Some(Word(v)) => vec![v], _ => vec![] }`
(src/src/parser.rs lines 74-77 and 87-90). -/
def capture (off3 : LexItem) : List String :=
  match off3 with
  | .word v => [v]
  | _ => []

/-- The Rust expression `v.split('[').nth(1)` (src/src/parser.rs line 58): the text between the
first `[` of `v` and the next `[` (or the end); `none` when `v` has no `[`. -/
def afterBracketChars : List Char → Option (List Char)
  | [] => none
  | c :: rest =>
    if c = '[' then some (rest.takeWhile (fun x => x ≠ '[')) else afterBracketChars rest

/-- String form of `afterBracketChars`. -/
def bracketSuffix (v : String) : Option String :=
  (afterBracketChars v.data).map String.mk

/-- The Rust expression `v.starts_with("param")` (src/src/parser.rs line 57). -/
def startsWithParam (v : String) : Bool :=
  v.data.take 5 = ['p', 'a', 'r', 'a', 'm']

/-- The direction-suffix resolution for parameter tags
(src/src/parser.rs lines 58-72). -/
def metaOf (v : String) : Except ParseError (List String) :=
  match bracketSuffix v with
  | none => .ok []
  | some s =>
    if s = "in]" then .ok ["in"]
    else if s = "out]" then .ok ["out"]
    else if s = "in,out]" then .ok ["in", "out"]
    else if s = "out,in]" then .ok ["in", "out"]
    else .error (.unexpectedInput s ["in]", "out]"])

/-- The closed set of single-argument tag names (src/src/parser.rs lines 84-87). -/
def singleArgTags : List String :=
  ["a", "b", "c", "p", "emoji", "e", "em", "def", "class", "category",
   "concept", "enum", "example", "extends", "file", "sa", "see", "retval",
   "exception", "throw", "throws"]

/-- The `LexItem::At` branch of the window dispatch (src/src/parser.rs
lines 39-109): resolves the lookahead token at offset 1, capturing an argument
from offset 3 where the tag takes one, and sets the skip counter. -/
def atStep (next off3 : LexItem) (acc : List GrammarItem) (skip : Nat) :
    Except ParseError (List GrammarItem × Nat) :=
  match next with
  | .paren v =>
    if v = '\x7b' then .ok (.groupStart :: acc, skip)
    else if v = '\x7d' then .ok (.groupEnd :: acc, skip)
    else .error (.unexpectedInput (String.mk [v]) ["\x7b", "\x7d"])
  | .word v =>
    if startsWithParam v then
      match metaOf v with
      | .error e => .error e
      | .ok meta =>
        let params := capture off3
        .ok (.nota meta params "param" :: acc, if params.isEmpty then 1 else 2)
    else
      let params := if v ∈ singleArgTags then capture off3 else []
      .ok (.nota [] params v :: acc, if params.isEmpty then 1 else 2)
  | _ => .ok (acc, skip)

/-- The `LexItem::Word` branch when the skip counter is zero
(src/src/parser.rs lines 117-124): merge into a trailing `Text`, else push a
new `Text`. -/
def pushWord (v : String) (acc : List GrammarItem) : List GrammarItem :=
  match acc with
  | .text t :: r => .text (t ++ v) :: r
  | _ => .text v :: acc

/-- The `LexItem::Space` branch (src/src/parser.rs lines 126-134): merge a
space into a trailing `Text`; push an empty `Text` after a non-text item; push
`Text(" ")` when nothing was emitted yet. -/
def pushSpace (acc : List GrammarItem) : List GrammarItem :=
  match acc with
  | .text t :: r => .text (t ++ " ") :: r
  | x :: r => .text "" :: x :: r
  | [] => [.text " "]

/-- The `LexItem::NewLine` branch (src/src/parser.rs lines 136-140): append to
a trailing `Text`, otherwise drop the newline. -/
def pushNl (acc : List GrammarItem) : List GrammarItem :=
  match acc with
  | .text t :: r => .text (t ++ "\n") :: r
  | _ => acc

/-- The `LexItem::Paren` branch (src/src/parser.rs lines 141-145): append the
brace character to a trailing `Text`, otherwise drop it. -/
def pushParen (c : Char) (acc : List GrammarItem) : List GrammarItem :=
  match acc with
  | .text t :: r => .text (t ++ String.mk [c]) :: r
  | _ => acc

/-- One iteration of the window loop of `parse_items` (src/src/parser.rs
lines 37-147), dispatching on the window's first token.  `next` and `off3` are
the window elements at offsets 1 and 3.  The output list is kept reversed
(head = most recently emitted item). -/
def step (cur next off3 : LexItem) (acc : List GrammarItem) (skip : Nat) :
    Except ParseError (List GrammarItem × Nat) :=
  match cur with
  | .atSigil => atStep next off3 acc skip
  | .word v => if 0 < skip then .ok (acc, skip - 1) else .ok (pushWord v acc, skip)
  | .space => .ok (pushSpace acc, skip)
  | .newLine => .ok (pushNl acc, skip)
  | .paren c => .ok (pushParen c acc, skip)

/-- The window loop of `parse_items` (src/src/parser.rs lines 33-150):
`input.windows(4)` visits every position whose window of four tokens fits; the
loop stops (returning the accumulated items, reversed back into emission
order) once fewer than four tokens remain. -/
def parseItemsGo : List LexItem → List GrammarItem → Nat →
    Except ParseError (List GrammarItem)
  | a :: b :: c :: d :: rest, acc, skip =>
    match step a b d acc skip with
    | .error e => .error e
    | .ok (acc2, skip2) => parseItemsGo (b :: c :: d :: rest) acc2 skip2
  | _, acc, _ => .ok acc.reverse

/-- The function `parse_items` (src/src/parser.rs lines 33-150) on an arbitrary token
vector. -/
def parseItems (input : List LexItem) : Except ParseError (List GrammarItem) :=
  parseItemsGo input [] 0

/-- The three padding `Space` tokens (src/src/parser.rs line 29). -/
def pad3 : List LexItem := [.space, .space, .space]

/-- The function `parse` (src/src/parser.rs lines 27-31): lex, pad with three spaces, run
the window loop. -/
def parse (input : String) : Except ParseError (List GrammarItem) :=
  parseItems (lex input ++ pad3)

instance : DecidableEq (Except ParseError (List GrammarItem)) := fun a b =>
  match a, b with
  | .ok x, .ok y => decidable_of_iff (x = y) (by simp)
  | .error x, .error y => decidable_of_iff (x = y) (by simp)
  | .ok _, .error _ => isFalse (by simp)
  | .error _, .ok _ => isFalse (by simp)

/-- Whether a result is the `UnexpectedEndOfInput` error (claim C9). -/
def isEndOfInputError (r : Except ParseError (List GrammarItem)) : Bool :=
  match r with
  | .error .unexpectedEndOfInput => true
  | _ => false

/-- Whether a grammar item is a `Text` (claim C8). -/
def GrammarItem.isText : GrammarItem → Bool
  | .text _ => true
  | _ => false

/-- Two grammar items are not both `Text` (claim C8's adjacency relation). -/
def NoTextPair (a b : GrammarItem) : Prop :=
  ¬(a.isText = true ∧ b.isText = true)

/-- The literal content one token contributes to a `Text` item. -/
def renderTok : LexItem → String
  | .atSigil => ""
  | .word v => v
  | .space => " "
  | .newLine => "\n"
  | .paren c => String.mk [c]

/-- The literal content a token sequence contributes to a `Text` item. -/
def render : List LexItem → String
  | [] => ""
  | t :: ts => renderTok t ++ render ts

/-- Whitespace collapsing in the spec's sense (spec section 8: each run of
consecutive horizontal-whitespace characters is replaced by one space
character; everything else is kept one-for-one).  The `fuel` argument only
makes the recursion structural, mirroring `lexGo`. -/
def collapseGo : Nat → List Char → List Char
  | 0, _ => []
  | _, [] => []
  | fuel + 1, c :: rest =>
    if isHWS c then ' ' :: collapseGo fuel (rest.dropWhile isHWS)
    else c :: collapseGo fuel rest

/-- Whitespace collapsing of a character list. -/
def collapseWS (l : List Char) : List Char := collapseGo l.length l

/-- Leading characters that the grammar pass drops when no `Text` item exists
yet: newlines and braces (src/src/parser.rs lines 136-145 with an empty
output). -/
def droppedAtStart (c : Char) : Bool := c = '\n' || c = '\x7b' || c = '\x7d'

/-- The tokenizer does not depend on the fuel argument once it covers the
length of the input. -/
theorem lexGo_fuel (f1 f2 : Nat) (l : List Char) (h1 : l.length ≤ f1)
    (h2 : l.length ≤ f2) : lexGo f1 l = lexGo f2 l := by
  induction f1 generalizing f2 l with
  | zero =>
    have hl : l = [] := List.eq_nil_of_length_eq_zero (Nat.le_zero.mp h1)
    subst hl
    cases f2 <;> rfl
  | succ f ih =>
    cases l with
    | nil => cases f2 <;> rfl
    | cons c rest =>
      cases f2 with
      | zero => simp at h2
      | succ f2' =>
        simp only [List.length_cons] at h1 h2
        have hr1 : rest.length ≤ f := by omega
        have hr2 : rest.length ≤ f2' := by omega
        have hdw1 : (rest.dropWhile isHWS).length ≤ rest.length :=
          List.IsSuffix.length_le (List.dropWhile_suffix isHWS)
        have hdw2 : (rest.dropWhile (fun x => !isBoundary x)).length ≤ rest.length :=
          List.IsSuffix.length_le (List.dropWhile_suffix (fun x => !isBoundary x))
        simp only [lexGo]
        split
        · exact congrArg _ (ih f2' rest hr1 hr2)
        · split
          · exact congrArg _ (ih f2' rest hr1 hr2)
          · split
            · exact congrArg _ (ih f2' _ (by omega) (by omega))
            · split
              · exact congrArg _ (ih f2' rest hr1 hr2)
              · exact congrArg _ (ih f2' _ (by omega) (by omega))

/-- Unfolding equation for the tokenizer on a non-empty character list. -/
theorem lexChars_cons (c : Char) (rest : List Char) :
    lexChars (c :: rest) =
      (if c = '@' then .atSigil :: lexChars rest
       else if c = '\x7b' || c = '\x7d' then .paren c :: lexChars rest
       else if isHWS c then .space :: lexChars (rest.dropWhile isHWS)
       else if c = '\n' then .newLine :: lexChars rest
       else
         .word (String.mk (c :: rest.takeWhile (fun x => !isBoundary x))) ::
           lexChars (rest.dropWhile (fun x => !isBoundary x))) := by
  show lexGo (rest.length + 1) (c :: rest) = _
  simp only [lexGo, lexChars]
  split
  · rfl
  · split
    · rfl
    · split
      · exact congrArg _ (lexGo_fuel _ _ _
          (List.IsSuffix.length_le (List.dropWhile_suffix isHWS)) le_rfl)
      · split
        · rfl
        · exact congrArg _ (lexGo_fuel _ _ _
            (List.IsSuffix.length_le
              (List.dropWhile_suffix (fun x => !isBoundary x))) le_rfl)

/-- Whitespace collapsing does not depend on the fuel argument once it covers
the length of the input. -/
theorem collapseGo_fuel (f1 f2 : Nat) (l : List Char) (h1 : l.length ≤ f1)
    (h2 : l.length ≤ f2) : collapseGo f1 l = collapseGo f2 l := by
  induction f1 generalizing f2 l with
  | zero =>
    have hl : l = [] := List.eq_nil_of_length_eq_zero (Nat.le_zero.mp h1)
    subst hl
    cases f2 <;> rfl
  | succ f ih =>
    cases l with
    | nil => cases f2 <;> rfl
    | cons c rest =>
      cases f2 with
      | zero => simp at h2
      | succ f2' =>
        simp only [List.length_cons] at h1 h2
        have hdw : (rest.dropWhile isHWS).length ≤ rest.length :=
          List.IsSuffix.length_le (List.dropWhile_suffix isHWS)
        simp only [collapseGo]
        split
        · exact congrArg _ (ih f2' _ (by omega) (by omega))
        · exact congrArg _ (ih f2' rest (by omega) (by omega))

/-- Unfolding equation for whitespace collapsing on a non-empty list. -/
theorem collapseWS_cons (c : Char) (rest : List Char) :
    collapseWS (c :: rest) =
      (if isHWS c then ' ' :: collapseWS (rest.dropWhile isHWS)
       else c :: collapseWS rest) := by
  show collapseGo (rest.length + 1) (c :: rest) = _
  simp only [collapseGo, collapseWS]
  split
  · exact congrArg _ (collapseGo_fuel _ _ _
      (List.IsSuffix.length_le (List.dropWhile_suffix isHWS)) le_rfl)
  · rfl

/-- Every error constructed by `metaOf` is an `UnexpectedInput`. -/
theorem metaOf_error_shape (v : String) (e : ParseError)
    (h : metaOf v = .error e) : ∃ f ex, e = .unexpectedInput f ex := by
  unfold metaOf at h
  split at h
  · simp at h
  · split at h
    · simp at h
    · split at h
      · simp at h
      · split at h
        · simp at h
        · split at h
          · simp at h
          · injection h with h2
            exact ⟨_, _, h2.symm⟩

/-- Every error constructed by `step` is an `UnexpectedInput`. -/
theorem step_error_shape (cur next off3 : LexItem) (acc : List GrammarItem)
    (skip : Nat) (e : ParseError) (h : step cur next off3 acc skip = .error e) :
    ∃ f ex, e = .unexpectedInput f ex := by
  cases cur with
  | atSigil =>
    cases next with
    | paren v =>
      simp only [step, atStep] at h
      split at h
      · simp at h
      · split at h
        · simp at h
        · injection h with h2
          exact ⟨_, _, h2.symm⟩
    | word v =>
      simp only [step, atStep] at h
      split at h
      · split at h
        · injection h with h2
          obtain ⟨f, ex, rfl⟩ := metaOf_error_shape v _ (by assumption)
          exact ⟨f, ex, h2.symm⟩
        · simp at h
      · simp at h
    | atSigil => simp [step, atStep] at h
    | space => simp [step, atStep] at h
    | newLine => simp [step, atStep] at h
  | word v =>
    simp only [step] at h
    split at h <;> simp at h
  | space => simp [step] at h
  | newLine => simp [step] at h
  | paren c => simp [step] at h

/-- Every error of the window loop is an `UnexpectedInput`. -/
theorem parseItemsGo_error_shape (l : List LexItem) (acc : List GrammarItem)
    (skip : Nat) (e : ParseError) (h : parseItemsGo l acc skip = .error e) :
    ∃ f ex, e = .unexpectedInput f ex := by
  induction l, acc, skip using parseItemsGo.induct with
  | case1 a b c d rest acc skip e2 he =>
    simp only [parseItemsGo, he] at h
    injection h with h2
    obtain ⟨f, ex, rfl⟩ := step_error_shape a b d acc skip e2 he
    exact ⟨f, ex, h2.symm⟩
  | case2 a b c d rest acc skip acc2 skip2 hok ih =>
    simp only [parseItemsGo, hok] at h
    exact ih h
  | case3 t acc x hne =>
    rcases t with _ | ⟨a, _ | ⟨b, _ | ⟨c, _ | ⟨d, r⟩⟩⟩⟩
    · simp [parseItemsGo] at h
    · simp [parseItemsGo] at h
    · simp [parseItemsGo] at h
    · simp [parseItemsGo] at h
    · exact (hne a b c d r rfl).elim

/-- Claim C9: `parse` never returns `UnexpectedEndOfInput`: with the
three-space padding, every error the grammar produces is an
`UnexpectedInput`. -/
theorem c9_no_eoi_error (input : String) :
    isEndOfInputError (parse input) = false := by
  unfold parse parseItems
  cases hr : parseItemsGo (lex input ++ pad3) [] 0 with
  | ok items => rfl
  | error e =>
    obtain ⟨f, ex, rfl⟩ := parseItemsGo_error_shape _ _ _ _ hr
    rfl

/-- Shape of a successful `step`: the output stack is unchanged, its `Text`
head was merged into, or one item was pushed — and a pushed `Text` only ever
lands on a stack whose head is not a `Text`. -/
theorem step_shape (cur next off3 : LexItem) (acc : List GrammarItem)
    (skip : Nat) (acc2 : List GrammarItem) (skip2 : Nat)
    (h : step cur next off3 acc skip = .ok (acc2, skip2)) :
    acc2 = acc ∨
      (∃ t t2 r0, acc = .text t :: r0 ∧ acc2 = .text t2 :: r0) ∨
      (∃ x, acc2 = x :: acc ∧
        (x.isText = true → ∀ (t : String) (r0 : List GrammarItem),
          acc ≠ .text t :: r0)) := by
  cases cur with
  | atSigil =>
    cases next with
    | paren v =>
      simp only [step, atStep] at h
      split at h
      · simp only [Except.ok.injEq, Prod.mk.injEq] at h
        obtain ⟨rfl, rfl⟩ := h
        exact Or.inr (Or.inr ⟨_, rfl, by simp [GrammarItem.isText]⟩)
      · split at h
        · simp only [Except.ok.injEq, Prod.mk.injEq] at h
          obtain ⟨rfl, rfl⟩ := h
          exact Or.inr (Or.inr ⟨_, rfl, by simp [GrammarItem.isText]⟩)
        · simp at h
    | word v =>
      simp only [step, atStep] at h
      split at h
      · split at h
        · simp at h
        · simp only [Except.ok.injEq, Prod.mk.injEq] at h
          obtain ⟨rfl, rfl⟩ := h
          exact Or.inr (Or.inr ⟨_, rfl, by simp [GrammarItem.isText]⟩)
      · simp only [Except.ok.injEq, Prod.mk.injEq] at h
        obtain ⟨rfl, rfl⟩ := h
        exact Or.inr (Or.inr ⟨_, rfl, by simp [GrammarItem.isText]⟩)
    | atSigil =>
      simp only [step, atStep, Except.ok.injEq, Prod.mk.injEq] at h
      obtain ⟨rfl, rfl⟩ := h
      exact Or.inl rfl
    | space =>
      simp only [step, atStep, Except.ok.injEq, Prod.mk.injEq] at h
      obtain ⟨rfl, rfl⟩ := h
      exact Or.inl rfl
    | newLine =>
      simp only [step, atStep, Except.ok.injEq, Prod.mk.injEq] at h
      obtain ⟨rfl, rfl⟩ := h
      exact Or.inl rfl
  | word v =>
    simp only [step] at h
    split at h
    · simp only [Except.ok.injEq, Prod.mk.injEq] at h
      obtain ⟨rfl, rfl⟩ := h
      exact Or.inl rfl
    · simp only [Except.ok.injEq, Prod.mk.injEq] at h
      obtain ⟨rfl, rfl⟩ := h
      rcases acc with _ | ⟨a0, r0⟩
      · exact Or.inr (Or.inr ⟨_, rfl, by intro _ t r0 hh; cases hh⟩)
      · cases a0 with
        | text t => exact Or.inr (Or.inl ⟨t, t ++ v, r0, rfl, rfl⟩)
        | nota m p tg =>
          exact Or.inr (Or.inr ⟨_, rfl, by intro _ t r1 hh; cases hh⟩)
        | groupStart =>
          exact Or.inr (Or.inr ⟨_, rfl, by intro _ t r1 hh; cases hh⟩)
        | groupEnd =>
          exact Or.inr (Or.inr ⟨_, rfl, by intro _ t r1 hh; cases hh⟩)
  | space =>
    simp only [step, Except.ok.injEq, Prod.mk.injEq] at h
    obtain ⟨rfl, rfl⟩ := h
    rcases acc with _ | ⟨a0, r0⟩
    · exact Or.inr (Or.inr ⟨_, rfl, by intro _ t r0 hh; cases hh⟩)
    · cases a0 with
      | text t => exact Or.inr (Or.inl ⟨t, t ++ " ", r0, rfl, rfl⟩)
      | nota m p tg =>
        exact Or.inr (Or.inr ⟨_, rfl, by intro _ t r1 hh; cases hh⟩)
      | groupStart =>
        exact Or.inr (Or.inr ⟨_, rfl, by intro _ t r1 hh; cases hh⟩)
      | groupEnd =>
        exact Or.inr (Or.inr ⟨_, rfl, by intro _ t r1 hh; cases hh⟩)
  | newLine =>
    simp only [step, Except.ok.injEq, Prod.mk.injEq] at h
    obtain ⟨rfl, rfl⟩ := h
    rcases acc with _ | ⟨a0, r0⟩
    · exact Or.inl rfl
    · cases a0 with
      | text t => exact Or.inr (Or.inl ⟨t, t ++ "\n", r0, rfl, rfl⟩)
      | nota m p tg => exact Or.inl rfl
      | groupStart => exact Or.inl rfl
      | groupEnd => exact Or.inl rfl
  | paren c =>
    simp only [step, Except.ok.injEq, Prod.mk.injEq] at h
    obtain ⟨rfl, rfl⟩ := h
    rcases acc with _ | ⟨a0, r0⟩
    · exact Or.inl rfl
    · cases a0 with
      | text t => exact Or.inr (Or.inl ⟨t, t ++ String.mk [c], r0, rfl, rfl⟩)
      | nota m p tg => exact Or.inl rfl
      | groupStart => exact Or.inl rfl
      | groupEnd => exact Or.inl rfl

/-- A successful `step` preserves the no-adjacent-`Text` invariant of the
output stack. -/
theorem chain_step (cur next off3 : LexItem) (acc : List GrammarItem)
    (skip : Nat) (acc2 : List GrammarItem) (skip2 : Nat)
    (hc : List.Chain' NoTextPair acc)
    (h : step cur next off3 acc skip = .ok (acc2, skip2)) :
    List.Chain' NoTextPair acc2 := by
  rcases step_shape cur next off3 acc skip acc2 skip2 h with
    rfl | ⟨t, t2, r0, rfl, rfl⟩ | ⟨x, rfl, hx⟩
  · exact hc
  · rw [List.chain'_cons'] at hc ⊢
    refine ⟨?_, hc.2⟩
    intro b hb
    have hb2 := hc.1 b hb
    simpa [NoTextPair, GrammarItem.isText] using hb2
  · rw [List.chain'_cons']
    refine ⟨?_, hc⟩
    intro b hb
    by_cases hxt : x.isText = true
    · rintro ⟨hx1, hb1⟩
      cases acc with
      | nil => simp at hb
      | cons a0 rest0 =>
        simp only [List.head?_cons, Option.mem_some_iff] at hb
        subst hb
        cases a0 with
        | text t0 => exact hx hxt t0 rest0 rfl
        | nota m p tg => simp [GrammarItem.isText] at hb1
        | groupStart => simp [GrammarItem.isText] at hb1
        | groupEnd => simp [GrammarItem.isText] at hb1
    · rintro ⟨hx1, _⟩
      exact hxt hx1

/-- The window loop preserves the no-adjacent-`Text` invariant. -/
theorem parseItemsGo_chain : ∀ (l : List LexItem) (acc : List GrammarItem)
    (skip : Nat), List.Chain' NoTextPair acc →
    ∀ r : List GrammarItem, parseItemsGo l acc skip = .ok r →
    List.Chain' NoTextPair r := by
  intro l acc skip
  induction l, acc, skip using parseItemsGo.induct with
  | case1 a b c d rest acc skip e2 he =>
    intro hc r h
    simp only [parseItemsGo, he] at h
    cases h
  | case2 a b c d rest acc skip acc2 skip2 hok ih =>
    intro hc r h
    simp only [parseItemsGo, hok] at h
    exact ih (chain_step a b d acc skip acc2 skip2 hc hok) r h
  | case3 t acc x hne =>
    intro hc r h
    have hrev : List.Chain' NoTextPair acc.reverse := by
      rw [List.chain'_reverse]
      exact hc.imp (fun a b hab => fun ⟨h1, h2⟩ => hab ⟨h2, h1⟩)
    rcases t with _ | ⟨a, _ | ⟨b, _ | ⟨c, _ | ⟨d, rr⟩⟩⟩⟩
    · simp only [parseItemsGo, Except.ok.injEq] at h
      exact h ▸ hrev
    · simp only [parseItemsGo, Except.ok.injEq] at h
      exact h ▸ hrev
    · simp only [parseItemsGo, Except.ok.injEq] at h
      exact h ▸ hrev
    · simp only [parseItemsGo, Except.ok.injEq] at h
      exact h ▸ hrev
    · exact (hne a b c d rr rfl).elim

/-- Claim C8: in every `Ok` result of the grammar pass no two consecutive
items are both `Text`. -/
theorem c8_no_adjacent_text (l : List LexItem) (r : List GrammarItem)
    (h : parseItems l = .ok r) :
    List.Chain' NoTextPair r :=
  parseItemsGo_chain l [] 0 (by simp) r h

/-- Witness for C8 on the token stream of `"@name x"`, whose output has a
notation followed by one `Text`. -/
theorem c8_no_adjacent_text_witness :
    List.Chain' NoTextPair [.nota [] [] "name", .text "x"] :=
  c8_no_adjacent_text
    [.atSigil, .word "name", .space, .word "x", .space, .space, .space]
    [.nota [] [] "name", .text "x"] (by decide)

/-- Any token list followed by the three padding spaces exposes at least four
leading elements. -/
theorem exists_cons3 (l : List LexItem) :
    ∃ b c d r, l ++ pad3 = b :: c :: d :: r :=
  match l with
  | [] => ⟨.space, .space, .space, [], rfl⟩
  | [a] => ⟨a, .space, .space, [.space], rfl⟩
  | [a, b] => ⟨a, b, .space, [.space, .space], rfl⟩
  | a :: b :: c :: r => ⟨a, b, c, r ++ pad3, rfl⟩

/-- Any token list followed by two tokens and the padding exposes at least
four leading elements. -/
theorem exists_cons3_suf (l : List LexItem) (x y : LexItem) :
    ∃ b c d r, l ++ (x :: y :: pad3) = b :: c :: d :: r :=
  match l with
  | [] => ⟨x, y, .space, [.space, .space], rfl⟩
  | [a] => ⟨a, x, y, pad3, rfl⟩
  | [a, b] => ⟨a, b, x, y :: pad3, rfl⟩
  | a :: b :: c :: r => ⟨a, b, c, r ++ (x :: y :: pad3), rfl⟩

/-- Folding an `At`-free token list into a trailing `Text` item: each token
appends its literal content, the items below are untouched, and no padding
token is ever visited as a current token. -/
theorem go_fold_text : ∀ (toks : List LexItem) (t : String)
    (base : List GrammarItem), LexItem.atSigil ∉ toks →
    parseItemsGo (toks ++ pad3) (.text t :: base) 0 =
      .ok ((.text (t ++ render toks) :: base).reverse) := by
  intro toks
  induction toks with
  | nil =>
    intro t base hA
    simp [parseItemsGo, pad3, render]
  | cons tok toks ih =>
    intro t base hA
    have hA2 : LexItem.atSigil ∉ toks := fun hm => hA (List.mem_cons_of_mem _ hm)
    have htok : tok ≠ .atSigil := fun he => hA (he ▸ List.mem_cons_self _ _)
    obtain ⟨b, c, d, rr, heq⟩ := exists_cons3 toks
    rw [List.cons_append, heq]
    cases tok with
    | atSigil => exact absurd rfl htok
    | word v =>
      simp only [parseItemsGo, step, pushWord, Nat.lt_irrefl, if_false]
      rw [← heq, ih (t ++ v) base hA2]
      simp [render, renderTok, String.append_assoc]
    | space =>
      simp only [parseItemsGo, step, pushSpace]
      rw [← heq, ih (t ++ " ") base hA2]
      simp [render, renderTok, String.append_assoc]
    | newLine =>
      simp only [parseItemsGo, step, pushNl]
      rw [← heq, ih (t ++ "\n") base hA2]
      simp [render, renderTok, String.append_assoc]
    | paren c2 =>
      simp only [parseItemsGo, step, pushParen]
      rw [← heq, ih (t ++ String.mk [c2]) base hA2]
      simp [render, renderTok, String.append_assoc]

/-- Membership in a `dropWhile` is membership in the original list. -/
theorem mem_of_mem_dropWhile {c : Char} {p : Char → Bool} {l : List Char}
    (h : c ∈ l.dropWhile p) : c ∈ l :=
  (List.dropWhile_suffix p).sublist.subset h

/-- Tokenizing an `@`-free character list yields no `At` token. -/
theorem lexChars_no_atSigil (n : Nat) : ∀ cs : List Char, cs.length ≤ n →
    '@' ∉ cs → LexItem.atSigil ∉ lexChars cs := by
  induction n with
  | zero =>
    intro cs h hA
    have hnil : cs = [] := List.eq_nil_of_length_eq_zero (Nat.le_zero.mp h)
    subst hnil
    simp [lexChars, lexGo]
  | succ n ih =>
    intro cs hlen hA
    cases cs with
    | nil => simp [lexChars, lexGo]
    | cons c rest =>
      have hc : ¬(c = '@') := fun he => hA (by simp [he])
      have hArest : '@' ∉ rest := fun hm => hA (List.mem_cons_of_mem _ hm)
      simp only [List.length_cons] at hlen
      have hd1 : (rest.dropWhile isHWS).length ≤ n := by
        have := List.IsSuffix.length_le (List.dropWhile_suffix (l := rest) isHWS)
        omega
      have hd2 : (rest.dropWhile (fun x => !isBoundary x)).length ≤ n := by
        have := List.IsSuffix.length_le
          (List.dropWhile_suffix (l := rest) (fun x => !isBoundary x))
        omega
      rw [lexChars_cons]
      split
      next hcc => exact absurd hcc hc
      next =>
        split
        next =>
          intro hmem
          rcases List.mem_cons.mp hmem with h1 | h1
          · exact LexItem.noConfusion h1
          · exact ih rest (by omega) hArest h1
        next =>
          split
          next =>
            intro hmem
            rcases List.mem_cons.mp hmem with h1 | h1
            · exact LexItem.noConfusion h1
            · exact ih _ hd1 (fun hm => hArest (mem_of_mem_dropWhile hm)) h1
          next =>
            split
            next =>
              intro hmem
              rcases List.mem_cons.mp hmem with h1 | h1
              · exact LexItem.noConfusion h1
              · exact ih rest (by omega) hArest h1
            next =>
              intro hmem
              rcases List.mem_cons.mp hmem with h1 | h1
              · exact LexItem.noConfusion h1
              · exact ih _ hd2 (fun hm => hArest (mem_of_mem_dropWhile hm)) h1

/-- Whitespace collapsing is transparent on a word run: the run is kept
verbatim and collapsing continues after it. -/
theorem collapseWS_word_run : ∀ cs : List Char,
    collapseWS cs = cs.takeWhile (fun x => !isBoundary x) ++
      collapseWS (cs.dropWhile (fun x => !isBoundary x)) := by
  intro cs
  induction cs with
  | nil => rfl
  | cons c rest ih =>
    by_cases hnb : (!isBoundary c) = true
    · have hbf : isBoundary c = false := by simpa using hnb
      have hhws : isHWS c = false := by
        cases hh : isHWS c
        · rfl
        · exfalso
          simp [isBoundary, hh] at hbf
      rw [List.takeWhile_cons_of_pos (p := fun x => !isBoundary x) hnb,
        List.dropWhile_cons_of_pos (p := fun x => !isBoundary x) hnb]
      rw [collapseWS_cons, if_neg (by simp [hhws])]
      rw [ih]
      rfl
    · rw [List.takeWhile_cons_of_neg (p := fun x => !isBoundary x) hnb,
        List.dropWhile_cons_of_neg (p := fun x => !isBoundary x) hnb]
      rfl

/-- Appending strings is appending their character lists. -/
theorem mk_append_mk (a b : List Char) :
    String.mk a ++ String.mk b = String.mk (a ++ b) := rfl

/-- The literal content of the tokens of an `@`-free character list is its
whitespace-collapsed text. -/
theorem render_lexChars (n : Nat) : ∀ cs : List Char, cs.length ≤ n →
    '@' ∉ cs → render (lexChars cs) = String.mk (collapseWS cs) := by
  induction n with
  | zero =>
    intro cs h hA
    have hnil : cs = [] := List.eq_nil_of_length_eq_zero (Nat.le_zero.mp h)
    subst hnil
    rfl
  | succ n ih =>
    intro cs hlen hA
    cases cs with
    | nil => rfl
    | cons c rest =>
      have hc : ¬(c = '@') := fun he => hA (by simp [he])
      have hArest : '@' ∉ rest := fun hm => hA (List.mem_cons_of_mem _ hm)
      simp only [List.length_cons] at hlen
      rw [lexChars_cons, collapseWS_cons]
      split
      next hcc => exact absurd hcc hc
      next hcc =>
        split
        next hbb =>
          have hhws : isHWS c = false := by
            have hbb2 : c = '\x7b' ∨ c = '\x7d' := by simpa using hbb
            rcases hbb2 with rfl | rfl <;> rfl
          rw [if_neg (by simp [hhws])]
          simp only [render, renderTok]
          rw [ih rest (by omega) hArest, mk_append_mk]
          rfl
        next hbb2 =>
          split
          next hws =>
            simp only [render, renderTok]
            rw [ih (rest.dropWhile isHWS)
              (by
                have := List.IsSuffix.length_le
                  (List.dropWhile_suffix (l := rest) isHWS)
                omega)
              (fun hm => hArest (mem_of_mem_dropWhile hm))]
            rfl
          next hws2 =>
            split
            next hnl =>
              subst hnl
              simp only [render, renderTok]
              rw [ih rest (by omega) hArest]
              rfl
            next hnl2 =>
              simp only [render, renderTok]
              rw [ih (rest.dropWhile (fun x => !isBoundary x))
                (by
                  have := List.IsSuffix.length_le
                    (List.dropWhile_suffix (l := rest) (fun x => !isBoundary x))
                  omega)
                (fun hm => hArest (mem_of_mem_dropWhile hm)), mk_append_mk]
              rw [collapseWS_word_run rest]
              rfl

/-- Parsing an `@`-free character list: leading newlines and braces are
dropped; once any other character occurs, everything folds into one `Text`
holding the whitespace-collapsed remainder. -/
theorem parseItemsGo_noAt (n : Nat) : ∀ cs : List Char, cs.length ≤ n →
    '@' ∉ cs →
    parseItemsGo (lexChars cs ++ pad3) [] 0 =
      .ok (if cs.dropWhile droppedAtStart = [] then []
           else [.text (String.mk (collapseWS (cs.dropWhile droppedAtStart)))]) := by
  induction n with
  | zero =>
    intro cs h hA
    have hnil : cs = [] := List.eq_nil_of_length_eq_zero (Nat.le_zero.mp h)
    subst hnil
    rfl
  | succ n ih =>
    intro cs hlen hA
    cases cs with
    | nil => rfl
    | cons c rest =>
      have hc : ¬(c = '@') := fun he => hA (by simp [he])
      have hArest : '@' ∉ rest := fun hm => hA (List.mem_cons_of_mem _ hm)
      simp only [List.length_cons] at hlen
      rw [lexChars_cons]
      split
      next hcc => exact absurd hcc hc
      next hcc =>
        split
        next hbb =>
          have hdrop : droppedAtStart c = true := by
            have hbr : c = '\x7b' ∨ c = '\x7d' := by simpa using hbb
            rcases hbr with rfl | rfl <;> rfl
          obtain ⟨b2, c2, d2, rr, heq⟩ := exists_cons3 (lexChars rest)
          rw [List.cons_append, heq]
          simp only [parseItemsGo, step, pushParen]
          rw [← heq, ih rest (by omega) hArest,
            List.dropWhile_cons_of_pos hdrop]
        next hbb2 =>
          split
          next hws =>
            have hdrop : droppedAtStart c = false := by
              have hws' : c = ' ' ∨ c = '\t' := by simpa [isHWS] using hws
              rcases hws' with rfl | rfl <;> rfl
            set rest' := rest.dropWhile isHWS with hrest'
            obtain ⟨b2, c2, d2, rr, heq⟩ := exists_cons3 (lexChars rest')
            rw [List.cons_append, heq]
            simp only [parseItemsGo, step, pushSpace]
            rw [← heq, go_fold_text (lexChars rest') " " []
              (lexChars_no_atSigil rest'.length rest' le_rfl
                (fun hm => hArest (mem_of_mem_dropWhile hm)))]
            rw [render_lexChars rest'.length rest' le_rfl
              (fun hm => hArest (mem_of_mem_dropWhile hm))]
            rw [List.dropWhile_cons_of_neg (by simp [hdrop]),
              if_neg (show ¬(c :: rest = []) from by simp),
              collapseWS_cons, if_pos hws]
            rfl
          next hws2 =>
            split
            next hnl =>
              subst hnl
              obtain ⟨b2, c2, d2, rr, heq⟩ := exists_cons3 (lexChars rest)
              rw [List.cons_append, heq]
              simp only [parseItemsGo, step, pushNl]
              rw [← heq, ih rest (by omega) hArest,
                List.dropWhile_cons_of_pos (by rfl)]
            next hnl2 =>
              have hb1 : ¬(c = '\x7b') := fun h => hbb2 (by simp [h])
              have hb2 : ¬(c = '\x7d') := fun h => hbb2 (by simp [h])
              have hdrop : droppedAtStart c = false := by
                simp [droppedAtStart, hnl2, hb1, hb2]
              set rest2 := rest.dropWhile (fun x => !isBoundary x) with hrest2
              obtain ⟨b2, c2, d2, rr, heq⟩ := exists_cons3 (lexChars rest2)
              rw [List.cons_append, heq]
              simp only [parseItemsGo, step, pushWord, Nat.lt_irrefl, if_false]
              rw [← heq, go_fold_text (lexChars rest2) _ []
                (lexChars_no_atSigil rest2.length rest2 le_rfl
                  (fun hm => hArest (mem_of_mem_dropWhile hm)))]
              rw [render_lexChars rest2.length rest2 le_rfl
                (fun hm => hArest (mem_of_mem_dropWhile hm))]
              rw [List.dropWhile_cons_of_neg (by simp [hdrop]),
                if_neg (show ¬(c :: rest = []) from by simp),
                collapseWS_cons, if_neg hws2, collapseWS_word_run rest]
              rfl

/-- Claim C2 counterexample: the input `"{"` contains no `@`, yet `parse`
returns `Ok` with zero items, not one `Text` item — a leading brace with no
preceding text is dropped (likewise the empty input and a lone newline). -/
theorem c2_counterexample :
    ('@' ∉ "\x7b".data ∧ parse "\x7b" = .ok []) ∧
      ¬∃ t : GrammarItem, parse "\x7b" = .ok [t] := by
  refine ⟨⟨by decide, by decide⟩, ?_⟩
  rintro ⟨t, ht⟩
  rw [show parse "\x7b" = (.ok [] : Except ParseError (List GrammarItem))
    from by decide] at ht
  simp at ht

/-- Claim C2 (amended): for every input without `@` whose characters are not
exhausted by dropping leading newlines and braces, `parse` returns exactly one
`Text` item holding the input after that leading drop, with each
horizontal-whitespace run collapsed to one space and newlines (and braces)
kept one-for-one. -/
theorem c2_text_collapse (s : String) (hA : '@' ∉ s.data)
    (hne : s.data.dropWhile droppedAtStart ≠ []) :
    parse s =
      .ok [.text (String.mk (collapseWS (s.data.dropWhile droppedAtStart)))] := by
  unfold parse parseItems lex
  rw [parseItemsGo_noAt s.data.length s.data le_rfl hA, if_neg hne]

/-- Witness for C2 (amended) on `"ab \t cd\nx"`. -/
theorem c2_text_collapse_witness :
    parse "ab \t cd\nx" = .ok [.text "ab cd\nx"] := by
  have h := c2_text_collapse "ab \t cd\nx" (by decide) (by decide)
  exact h

/-- Tokenizing an input that begins with `"@name "` yields the sigil, the word
`"name"`, one space token (absorbing any further leading horizontal
whitespace), then the tokens of the remainder. -/
theorem lexChars_name (cs : List Char) :
    lexChars ('@' :: 'n' :: 'a' :: 'm' :: 'e' :: ' ' :: cs) =
      .atSigil :: .word "name" :: .space :: lexChars (cs.dropWhile isHWS) := by
  rw [lexChars_cons, if_pos rfl]
  rw [lexChars_cons]
  rw [if_neg (by decide), if_neg (by decide), if_neg (by decide),
    if_neg (by decide)]
  rw [show List.takeWhile (fun x => !isBoundary x) ('a' :: 'm' :: 'e' :: ' ' :: cs) =
      'a' :: 'm' :: 'e' :: List.takeWhile (fun x => !isBoundary x) (' ' :: cs) from by
    rw [List.takeWhile_cons_of_pos (by decide),
      List.takeWhile_cons_of_pos (by decide),
      List.takeWhile_cons_of_pos (by decide)]]
  rw [List.takeWhile_cons_of_neg (by decide)]
  rw [show List.dropWhile (fun x => !isBoundary x) ('a' :: 'm' :: 'e' :: ' ' :: cs) =
      ' ' :: cs from by
    rw [List.dropWhile_cons_of_pos (by decide),
      List.dropWhile_cons_of_pos (by decide),
      List.dropWhile_cons_of_pos (by decide),
      List.dropWhile_cons_of_neg (by decide)]]
  rw [lexChars_cons, if_neg (by decide), if_neg (by decide), if_pos (by decide)]

/-- The `At` dispatch on the tag word `"name"`: not a param prefix, not a
single-argument tag, so no argument is captured and the skip counter becomes
one. -/
theorem atStep_name (off3 : LexItem) (acc : List GrammarItem) (skip : Nat) :
    atStep (.word "name") off3 acc skip = .ok (.nota [] [] "name" :: acc, 1) := by
  rw [atStep, if_neg (show ¬(startsWithParam "name" = true) from by decide),
    if_neg (show ¬("name" ∈ singleArgTags) from by decide)]
  simp

/-- Claim C5 counterexample: the input `"@name @param[x]"` begins with
`"@name "` but `parse` does not return `Ok` at all — the malformed direction
suffix in the remainder aborts the parse. -/
theorem c5_counterexample :
    parse "@name @param[x]" =
      .error (.unexpectedInput "x]" ["in]", "out]"]) := by
  decide

/-- Claim C5 (amended): for inputs `"@name " ++ r` where the remainder `r`
contains no `@`, `parse` returns the zero-argument notation for `"name"`
followed by one `Text` holding `r` with its leading horizontal whitespace
dropped and its whitespace runs collapsed. -/
theorem c5_name_text (r : String) (hA : '@' ∉ r.data) :
    parse ("@name " ++ r) =
      .ok [.nota [] [] "name",
           .text (String.mk (collapseWS (r.data.dropWhile isHWS)))] := by
  unfold parse parseItems lex
  rw [String.data_append]
  rw [show ("@name ".data ++ r.data : List Char) =
    '@' :: 'n' :: 'a' :: 'm' :: 'e' :: ' ' :: r.data from rfl]
  rw [lexChars_name]
  have hAd : '@' ∉ r.data.dropWhile isHWS :=
    fun hm => hA (mem_of_mem_dropWhile hm)
  obtain ⟨b2, c2, d2, rr, heq⟩ := exists_cons3 (lexChars (r.data.dropWhile isHWS))
  rw [List.cons_append, List.cons_append, List.cons_append, heq]
  simp only [parseItemsGo, step, atStep_name, pushSpace, Nat.zero_lt_one,
    if_true, Nat.lt_irrefl, if_false]
  rw [← heq, go_fold_text (lexChars (r.data.dropWhile isHWS)) "" [.nota [] [] "name"]
    (lexChars_no_atSigil _ _ le_rfl hAd)]
  rw [render_lexChars _ _ le_rfl hAd]
  rfl

/-- Witness for C5 (amended), reproducing the repository's own test input. -/
theorem c5_name_text_witness :
    parse "@name Memory Management" =
      .ok [.nota [] [] "name", .text "Memory Management"] := by
  have h := c5_name_text "Memory Management" (by decide)
  exact h

/-- Tokenizing a text followed by the two closing-delimiter characters
`"@}"` appends exactly the sigil and closing-brace tokens: the sigil is a
word and whitespace boundary, so no run extends across it. -/
theorem lexChars_append_close (n : Nat) : ∀ cs : List Char, cs.length ≤ n →
    lexChars (cs ++ ['@', '\x7d']) = lexChars cs ++ [.atSigil, .paren '\x7d'] := by
  induction n with
  | zero =>
    intro cs h
    have hnil : cs = [] := List.eq_nil_of_length_eq_zero (Nat.le_zero.mp h)
    subst hnil
    rfl
  | succ n ih =>
    intro cs hlen
    cases cs with
    | nil => rfl
    | cons c rest =>
      simp only [List.length_cons] at hlen
      rw [List.cons_append, lexChars_cons, lexChars_cons]
      split
      next =>
        rw [ih rest (by omega)]
        simp
      next =>
        split
        next =>
          rw [ih rest (by omega)]
          simp
        next =>
          split
          next hws =>
            rw [List.dropWhile_append]
            by_cases hemp : (rest.dropWhile isHWS).isEmpty
            · have hnil : rest.dropWhile isHWS = [] := by simpa using hemp
              rw [if_pos hemp, hnil]
              rfl
            · rw [if_neg hemp]
              rw [ih (rest.dropWhile isHWS)
                (by
                  have := List.IsSuffix.length_le
                    (List.dropWhile_suffix (l := rest) isHWS)
                  omega)]
              simp
          next hws2 =>
            split
            next hnl =>
              rw [ih rest (by omega)]
              simp
            next hnl2 =>
              rw [List.takeWhile_append, List.dropWhile_append]
              by_cases hemp : (rest.dropWhile (fun x => !isBoundary x)).isEmpty
              · have hnil : rest.dropWhile (fun x => !isBoundary x) = [] := by
                  simpa using hemp
                have htk : rest.takeWhile (fun x => !isBoundary x) = rest := by
                  have hta := List.takeWhile_append_dropWhile
                    (p := fun x => !isBoundary x) (l := rest)
                  rw [hnil] at hta
                  simpa using hta
                rw [if_pos (by rw [htk]), if_pos hemp, htk, hnil]
                rw [show List.takeWhile (fun x => !isBoundary x) ['@', '\x7d']
                    = [] from rfl,
                  show List.dropWhile (fun x => !isBoundary x) ['@', '\x7d']
                    = ['@', '\x7d'] from rfl,
                  show lexChars ['@', '\x7d'] = [.atSigil, .paren '\x7d'] from rfl,
                  show lexChars ([] : List Char) = [] from rfl]
                simp
              · have hdne : rest.dropWhile (fun x => !isBoundary x) ≠ [] := by
                  simpa using hemp
                have hlt : ¬((rest.takeWhile (fun x => !isBoundary x)).length
                    = rest.length) := by
                  have hsum := congrArg List.length
                    (List.takeWhile_append_dropWhile
                      (p := fun x => !isBoundary x) (l := rest))
                  rw [List.length_append] at hsum
                  have hpos : 0 < (rest.dropWhile (fun x => !isBoundary x)).length :=
                    List.length_pos.mpr hdne
                  omega
                rw [if_neg hlt, if_neg hemp]
                rw [ih (rest.dropWhile (fun x => !isBoundary x))
                  (by
                    have := List.IsSuffix.length_le
                      (List.dropWhile_suffix (l := rest) (fun x => !isBoundary x))
                    omega)]
                simp

/-- Every item below the top of the stack survives, in order, at the front of
a successful result of the window loop. -/
theorem go_ok_drop_extends : ∀ (l : List LexItem) (acc : List GrammarItem)
    (skip : Nat) (r : List GrammarItem), parseItemsGo l acc skip = .ok r →
    ∃ u, r = (acc.drop 1).reverse ++ u := by
  intro l acc skip
  induction l, acc, skip using parseItemsGo.induct with
  | case1 a b c d rest acc skip e2 he =>
    intro r h
    simp only [parseItemsGo, he] at h
    cases h
  | case2 a b c d rest acc skip acc2 skip2 hok ih =>
    intro r h
    simp only [parseItemsGo, hok] at h
    obtain ⟨u, hu⟩ := ih r h
    rcases step_shape a b d acc skip acc2 skip2 hok with
      rfl | ⟨t, t2, r0, rfl, rfl⟩ | ⟨x, rfl, hx⟩
    · exact ⟨u, hu⟩
    · exact ⟨u, by simpa using hu⟩
    · refine ⟨(acc.take 1).reverse ++ u, ?_⟩
      rw [hu]
      simp only [List.drop_succ_cons, List.drop_zero]
      conv_lhs => rw [← List.take_append_drop 1 acc]
      rw [List.reverse_append, List.append_assoc]
  | case3 t acc x hne =>
    intro r h
    have hr : r = acc.reverse := by
      rcases t with _ | ⟨a, _ | ⟨b, _ | ⟨c, _ | ⟨d, rr⟩⟩⟩⟩
      · simp only [parseItemsGo, Except.ok.injEq] at h
        exact h.symm
      · simp only [parseItemsGo, Except.ok.injEq] at h
        exact h.symm
      · simp only [parseItemsGo, Except.ok.injEq] at h
        exact h.symm
      · simp only [parseItemsGo, Except.ok.injEq] at h
        exact h.symm
      · exact (hne a b c d rr rfl).elim
    refine ⟨(acc.take 1).reverse, ?_⟩
    rw [hr]
    conv_lhs => rw [← List.take_append_drop 1 acc]
    rw [List.reverse_append]

/-- When the top of the stack is not a `Text`, the whole stack survives, in
order, at the front of a successful result of the window loop. -/
theorem go_ok_extends : ∀ (l : List LexItem) (acc : List GrammarItem)
    (skip : Nat), (∀ (t : String) (r0 : List GrammarItem), acc ≠ .text t :: r0) →
    ∀ r : List GrammarItem, parseItemsGo l acc skip = .ok r →
    ∃ u, r = acc.reverse ++ u := by
  intro l acc skip
  induction l, acc, skip using parseItemsGo.induct with
  | case1 a b c d rest acc skip e2 he =>
    intro hcl r h
    simp only [parseItemsGo, he] at h
    cases h
  | case2 a b c d rest acc skip acc2 skip2 hok ih =>
    intro hcl r h
    simp only [parseItemsGo, hok] at h
    rcases step_shape a b d acc skip acc2 skip2 hok with
      rfl | ⟨t, t2, r0, rfl, rfl⟩ | ⟨x, rfl, hx⟩
    · exact ih hcl r h
    · exact absurd rfl (hcl t r0)
    · obtain ⟨u, hu⟩ := go_ok_drop_extends _ _ _ r h
      exact ⟨u, by simpa using hu⟩
  | case3 t acc x hne =>
    intro hcl r h
    have hr : r = acc.reverse := by
      rcases t with _ | ⟨a, _ | ⟨b, _ | ⟨c, _ | ⟨d, rr⟩⟩⟩⟩
      · simp only [parseItemsGo, Except.ok.injEq] at h
        exact h.symm
      · simp only [parseItemsGo, Except.ok.injEq] at h
        exact h.symm
      · simp only [parseItemsGo, Except.ok.injEq] at h
        exact h.symm
      · simp only [parseItemsGo, Except.ok.injEq] at h
        exact h.symm
      · exact (hne a b c d rr rfl).elim
    exact ⟨[], by simp [hr]⟩

/-- The `At` dispatch on an opening brace pushes `GroupStart`. -/
theorem atStep_openBrace (off3 : LexItem) (acc : List GrammarItem)
    (skip : Nat) :
    atStep (.paren '\x7b') off3 acc skip = .ok (.groupStart :: acc, skip) := by
  simp [atStep]

/-- Processing the final `"@}"` tokens and the padding pushes `GroupEnd` and
stops. -/
theorem parseItemsGo_close_tail (acc : List GrammarItem) (skip : Nat) :
    parseItemsGo (.atSigil :: .paren '\x7d' :: pad3) acc skip =
      .ok (acc.reverse ++ [.groupEnd]) := by
  simp [parseItemsGo, step, atStep, pushParen, pad3]

/-- Whenever the token stream ends with the tokens of `"@}"` (before the
padding), a successful parse ends with `GroupEnd`. -/
theorem go_last_groupEnd : ∀ (l : List LexItem) (acc : List GrammarItem)
    (skip : Nat) (r : List GrammarItem),
    parseItemsGo (l ++ (.atSigil :: .paren '\x7d' :: pad3)) acc skip = .ok r →
    r.getLast? = some .groupEnd := by
  intro l
  induction l with
  | nil =>
    intro acc skip r h
    rw [List.nil_append, parseItemsGo_close_tail] at h
    injection h with h2
    rw [← h2, List.getLast?_concat]
  | cons a l ihl =>
    intro acc skip r h
    obtain ⟨b, c, d, rr, heq⟩ := exists_cons3_suf l .atSigil (.paren '\x7d')
    rw [List.cons_append, heq] at h
    cases hstep : step a b d acc skip with
    | error e =>
      simp only [parseItemsGo, hstep] at h
      cases h
    | ok p =>
      obtain ⟨acc2, skip2⟩ := p
      simp only [parseItemsGo, hstep] at h
      rw [← heq] at h
      exact ihl acc2 skip2 r h

/-- Claim C6 counterexample: for `body = " "` the items between `GroupStart`
and `GroupEnd` in `parse "@{ @}"` are `[Text("")]`, while `parse " "` is
`[Text(" ")]` — the enclosed content is not parsed identically (a space after
`GroupStart` seeds an empty `Text`, standalone it seeds `Text(" ")`). -/
theorem c6_counterexample :
    parse "@\x7b @\x7d" = .ok [.groupStart, .text "", .groupEnd] ∧
      parse " " = .ok [.text " "] ∧
      GrammarItem.text "" ≠ .text " " :=
  ⟨by decide, by decide, by decide⟩

/-- Claim C6 (amended): for every input of the form `"@{" ++ body ++ "@}"`,
whenever `parse` succeeds its first item is `GroupStart` and its last item is
`GroupEnd` (`@` before `{` always emits `GroupStart`, `@` before `}` always
emits `GroupEnd`); the items in between are the enclosed content as parsed in
context, which can differ from the standalone parse of `body`, and `parse`
can fail when `body` contains a malformed tag. -/
theorem c6_group_ends (body : String) (r : List GrammarItem)
    (h : parse ("@\x7b" ++ body ++ "@\x7d") = .ok r) :
    r.head? = some .groupStart ∧ r.getLast? = some .groupEnd := by
  unfold parse parseItems lex at h
  rw [String.data_append, String.data_append] at h
  rw [show ("@\x7b".data : List Char) = ['@', '\x7b'] from rfl,
    show ("@\x7d".data : List Char) = ['@', '\x7d'] from rfl] at h
  rw [show (['@', '\x7b'] ++ body.data) ++ ['@', '\x7d'] =
    '@' :: '\x7b' :: (body.data ++ ['@', '\x7d']) from by simp] at h
  rw [lexChars_cons, if_pos rfl] at h
  rw [lexChars_cons, if_neg (by decide), if_pos (by decide)] at h
  rw [lexChars_append_close body.data.length body.data le_rfl] at h
  have hc : parseItemsGo (.atSigil :: .paren '\x7b' ::
      (lexChars body.data ++ (.atSigil :: .paren '\x7d' :: pad3))) [] 0 =
        .ok r := by
    simpa [List.cons_append, List.append_assoc] using h
  constructor
  · obtain ⟨b, c, d, rr, heq⟩ :=
      exists_cons3_suf (lexChars body.data) .atSigil (.paren '\x7d')
    rw [heq] at hc
    simp only [parseItemsGo, step, atStep_openBrace, pushParen] at hc
    obtain ⟨u, hu⟩ := go_ok_extends (b :: c :: d :: rr) [.groupStart] 0
      (by intro t r0 hh; simp at hh) r hc
    rw [hu]
    rfl
  · exact go_last_groupEnd (.atSigil :: .paren '\x7b' :: lexChars body.data)
      [] 0 r (by simpa [List.cons_append, List.append_assoc] using hc)

/-- Witness for C6 (amended) at `body = "x"`. -/
theorem c6_group_ends_witness :
    ([.groupStart, .text "x", .groupEnd] : List GrammarItem).head? =
        some .groupStart ∧
      ([.groupStart, .text "x", .groupEnd] : List GrammarItem).getLast? =
        some .groupEnd :=
  c6_group_ends "x" [.groupStart, .text "x", .groupEnd] (by decide)

/-- Claim C1: parsing `"@param[in] x rest"` yields the notation with
`meta = ["in"]`, `params = ["x"]`, `tag = "param"` followed by `Text(" rest")`,
and parsing `"@param[in,out] y z"` yields first the notation with
`meta = ["in", "out"]` (with `"in"` before `"out"`) and `params = ["y"]`;
neither the tag word nor the captured argument word leaks into the trailing
text. -/
theorem c1_param_directions :
    parse "@param[in] x rest" =
        .ok [.nota ["in"] ["x"] "param", .text " rest"] ∧
      parse "@param[in,out] y z" =
        .ok [.nota ["in", "out"] ["y"] "param", .text " z"] := by
  constructor <;> decide

/-- Claim C3: when an `At` token is directly followed by a `Word` beginning
with `"param"` whose first bracketed segment is none of the four recognized
direction suffixes, the grammar pass aborts with `UnexpectedInput` whose
`found` field is that segment and whose `expected` list is exactly
`["in]", "out]"]`; whereas a param word with no `[` at all is not an error and
produces a notation with empty `meta`. -/
theorem c3_bad_suffix (w s : String) (rest : List LexItem)
    (acc : List GrammarItem) (skip : Nat)
    (hw : startsWithParam w = true) (hs : bracketSuffix w = some s)
    (h1 : s ≠ "in]") (h2 : s ≠ "out]") (h3 : s ≠ "in,out]") (h4 : s ≠ "out,in]")
    (hlen : 2 ≤ rest.length) :
    parseItemsGo (.atSigil :: .word w :: rest) acc skip =
        .error (.unexpectedInput s ["in]", "out]"]) ∧
      (∀ (w2 : String) (off3 : LexItem), startsWithParam w2 = true →
        bracketSuffix w2 = none →
        step .atSigil (.word w2) off3 acc skip =
          .ok (.nota [] (capture off3) "param" :: acc,
               if (capture off3).isEmpty then 1 else 2)) := by
  constructor
  · match rest, hlen with
    | b :: c :: rest2, _ =>
      simp [parseItemsGo, step, atStep, metaOf, hw, hs, h1, h2, h3, h4]
  · intro w2 off3 hw2 hn2
    simp [step, atStep, metaOf, hw2, hn2]

/-- Witness for C3 at `w = "param[foo]"` (bracketed segment `"foo]"`) and, for
the bracketless part, `w2 = "param"` with a following argument word. -/
theorem c3_bad_suffix_witness :
    parseItemsGo [.atSigil, .word "param[foo]", .space, .space] [] 0 =
        .error (.unexpectedInput "foo]" ["in]", "out]"]) ∧
      step .atSigil (.word "param") (.word "x") [] 0 =
        .ok ([.nota [] ["x"] "param"], 2) := by
  have h := c3_bad_suffix "param[foo]" "foo]" [.space, .space] [] 0
    (by decide) (by decide) (by decide) (by decide) (by decide) (by decide)
    (by decide)
  exact ⟨h.1, h.2 "param" (.word "x") (by decide) (by decide)⟩

/-- Claim C4: an `At` token followed by a `Word` that neither begins with
`"param"` nor belongs to the closed set of single-argument tag names is not an
error: it emits a notation with empty `meta` and empty `params` (regardless of
the offset-3 lookahead token) and sets the skip counter to 1. -/
theorem c4_unknown_tag (w : String) (off3 : LexItem) (acc : List GrammarItem)
    (skip : Nat) (h1 : startsWithParam w = false) (h2 : w ∉ singleArgTags) :
    step .atSigil (.word w) off3 acc skip = .ok (.nota [] [] w :: acc, 1) := by
  simp [step, atStep, h1, h2]

/-- Witness for C4 at `w = "foo"`, with a following word that is nevertheless
not captured. -/
theorem c4_unknown_tag_witness :
    step .atSigil (.word "foo") (.word "bar") [] 5 =
      .ok ([.nota [] [] "foo"], 1) :=
  c4_unknown_tag "foo" (.word "bar") [] 5 (by decide) (by decide)

/-- Claim C7: a `NewLine` or `Brace` current token appends its character to
the last emitted item exactly when that item is a `Text`; in every other case
(last item is a notation or group delimiter, or nothing was emitted) the
character is dropped and the output is unchanged. -/
theorem c7_newline_brace (b d : LexItem) (skip : Nat) (c : Char) :
    (∀ (t : String) (r : List GrammarItem),
        step .newLine b d (.text t :: r) skip = .ok (.text (t ++ "\n") :: r, skip)) ∧
      (∀ acc : List GrammarItem, (∀ (t : String) (r : List GrammarItem),
          acc ≠ .text t :: r) →
        step .newLine b d acc skip = .ok (acc, skip)) ∧
      (∀ (t : String) (r : List GrammarItem),
        step (.paren c) b d (.text t :: r) skip =
          .ok (.text (t ++ String.mk [c]) :: r, skip)) ∧
      (∀ acc : List GrammarItem, (∀ (t : String) (r : List GrammarItem),
          acc ≠ .text t :: r) →
        step (.paren c) b d acc skip = .ok (acc, skip)) := by
  refine ⟨fun t r => rfl, fun acc hacc => ?_, fun t r => rfl, fun acc hacc => ?_⟩
  · cases acc with
    | nil => rfl
    | cons x r =>
      cases x with
      | text t => exact absurd rfl (hacc t r)
      | nota m p tg => rfl
      | groupStart => rfl
      | groupEnd => rfl
  · cases acc with
    | nil => rfl
    | cons x r =>
      cases x with
      | text t => exact absurd rfl (hacc t r)
      | nota m p tg => rfl
      | groupStart => rfl
      | groupEnd => rfl

/-- Witness for C7: a newline is appended to a trailing `Text` but dropped
after `GroupStart`; a brace is appended to a trailing `Text` but dropped on an
empty output. -/
theorem c7_newline_brace_witness :
    step .newLine .space .space [.text "a"] 0 = .ok ([.text "a\n"], 0) ∧
      step .newLine .space .space [.groupStart] 0 = .ok ([.groupStart], 0) ∧
      step (.paren '\x7b') .space .space [.text "a"] 0 =
        .ok ([.text "a\x7b"], 0) ∧
      step (.paren '\x7b') .space .space [] 0 = .ok ([], 0) := by
  have h := c7_newline_brace .space .space 0 '\x7b'
  exact ⟨h.1 "a" [], h.2.1 [.groupStart] (fun t r hh => by simp at hh),
    h.2.2.1 "a" [], h.2.2.2 [] (fun t r hh => by simp at hh)⟩

/-- Claim C10: an `At` token whose offset-1 lookahead is another `At` token
produces no output item and no error (the catch-all branch of the `At`
dispatch), so `"@@tag"` parses to exactly one notation for `"tag"`. -/
theorem c10_double_at :
    (∀ (d : LexItem) (acc : List GrammarItem) (skip : Nat),
        step .atSigil .atSigil d acc skip = .ok (acc, skip)) ∧
      parse "@@tag" = .ok [.nota [] [] "tag"] :=
  ⟨fun _ _ _ => rfl, by decide⟩

end Doxygen
